import Mathlib

/-!
# Verification of the oneAPI `ap_float` / annotated-pointer FPGA tutorials

This file shallowly embeds the numeric logic of the tutorials:

* `quadratic_gold` and the quadratic-solver kernels (idealized over exact
  rationals, with the square root supplied as an oracle parameter, since
  the square root of a rational is irrational in general);
* a computable bit-accurate model of the parametric floating-point type
  of the tutorials (`Layout`, `roundVal`, the arithmetic operations).
  The underlying library is vendor code that is not part of this
  repository, so those operations are modelled from the specification's
  description of the numeric core;
* the sine-approximation kernel, generic over the arithmetic type, as in
  the source;
* small models of the host-side test-harness logic (NaN comparisons in
  the quadratic test loop, the null check in the annotated allocator).

Machine doubles are represented as exact rationals; a value of the
modelled float type is `APVal` (NaN, a signed infinity, or a finite
rational kept on the representable grid by `roundVal`).

The standard arithmetic on `ℚ` is not kernel-reducible (the operations
are irreducible), so the executable definitions use a thin layer of
kernel-reducible rational operations (`qAdd`, `qMul`, ...) built on
`mkRat`; each is proved equal to the standard operation.
-/

/-- Kernel-reducible addition on `ℚ`. -/
def qAdd (a b : ℚ) : ℚ := mkRat (a.num * b.den + b.num * a.den) (a.den * b.den)

/-- Kernel-reducible subtraction on `ℚ`. -/
def qSub (a b : ℚ) : ℚ := mkRat (a.num * b.den - b.num * a.den) (a.den * b.den)

/-- Kernel-reducible multiplication on `ℚ`. -/
def qMul (a b : ℚ) : ℚ := mkRat (a.num * b.num) (a.den * b.den)

/-- Kernel-reducible division on `ℚ` (division by zero yields zero, as for
the standard operation). -/
def qDiv (a b : ℚ) : ℚ := Rat.divInt (a.num * b.den) (b.num * a.den)

/-- Kernel-reducible negation on `ℚ`. -/
def qNeg (a : ℚ) : ℚ := mkRat (-a.num) a.den

/-- Kernel-reducible absolute value on `ℚ`. -/
def qAbs (a : ℚ) : ℚ := if a.num < 0 then qNeg a else a

/-- Kernel-reducible floor on `ℚ` (integer division of numerator by
denominator; `Int` division is Euclidean, hence a genuine floor for the
positive denominator). -/
def qFloor (a : ℚ) : Int := a.num / a.den

/-- Rounding modes of the configurable float type: round to nearest even,
and truncate toward zero. -/
inductive RMode where
  | RNE
  | RZERO
deriving DecidableEq, Repr

/-- Accuracy tiers for the explicitly-templated arithmetic operations
(high = correctly rounded, low = up to one unit in the last place). -/
inductive AccTier where
  | high
  | low
deriving DecidableEq, Repr

/-- Subnormal handling for the arithmetic operations: `off` flushes
results below the smallest normal magnitude to zero. -/
inductive SubMode where
  | on
  | off
deriving DecidableEq, Repr

/-- A parametric binary floating-point layout: `E` exponent bits and `M`
mantissa bits, as in the tutorials' configurable float type. -/
structure Layout where
  E : Nat
  M : Nat
deriving DecidableEq, Repr

/-- Exponent bias `2^(E-1) - 1`. -/
def Layout.bias (L : Layout) : Int := 2 ^ (L.E - 1) - 1

/-- Smallest normal exponent `1 - bias`. -/
def Layout.emin (L : Layout) : Int := 1 - L.bias

/-- Largest normal exponent (equal to the bias). -/
def Layout.emax (L : Layout) : Int := L.bias

/-- Fuel-based binary exponentiation: `pow2F fuel n = 2 ^ n` whenever
`n < 2 ^ fuel`.  Squaring keeps the recursion depth at the fuel, so both
elaborator and kernel reduce it quickly. -/
def pow2F : Nat → Nat → Nat
  | 0, _ => 1
  | _ + 1, 0 => 1
  | fuel + 1, n => (fun h => if n % 2 = 0 then h * h else 2 * (h * h)) (pow2F fuel (n / 2))

/-- The natural number `2 ^ n`, computed by binary exponentiation
(correct for every exponent below `2 ^ 64`). -/
def pow2Nat (n : Nat) : Nat := pow2F 64 n

/-- The rational `2^k` for an integer `k`. -/
def qpow2 (k : Int) : ℚ :=
  if 0 ≤ k then mkRat (pow2Nat k.toNat) 1 else mkRat 1 (pow2Nat (-k).toNat)

/-- Largest finite magnitude of a layout: `(2^(M+1) - 1) * 2^(emax - M)`. -/
def Layout.maxFin (L : Layout) : ℚ := qMul (mkRat (2 ^ (L.M + 1) - 1) 1) (qpow2 (L.emax - L.M))

/-- Fuel-based binary logarithm on naturals by repeated halving:
`natLog2Small fuel n` is the floor of the base-2 logarithm of `n`
whenever `1 ≤ n < 2 ^ fuel`.  Structural recursion on the fuel keeps it
kernel-reducible. -/
def natLog2Small : Nat → Nat → Nat
  | 0, _ => 0
  | fuel + 1, n => if n ≤ 1 then 0 else natLog2Small fuel (n / 2) + 1

/-- Chunked binary logarithm: divides by `2^64` per fuel step so that the
recursion depth stays small even for numbers of thousands of bits.
Correct for `1 ≤ n < 2 ^ (64 * fuel + 64)`. -/
def natLog2C : Nat → Nat → Nat
  | 0, n => natLog2Small 64 n
  | fuel + 1, n => if n < 2 ^ 64 then natLog2Small 64 n else natLog2C fuel (n / 2 ^ 64) + 64

/-- Binary logarithm on naturals, correct for `1 ≤ n < 2 ^ 4160`; every
number in this development is far below that bound. -/
def natLog2 (n : Nat) : Nat := natLog2C 64 n

/-- The binary exponent of a positive rational `a`: the unique `e` with
`2^e ≤ a < 2^(e+1)` (for numerator and denominator below `2 ^ 4160`). -/
def qexp (a : ℚ) : Int :=
  let p := a.num.natAbs
  let d := a.den
  let e0 : Int := (natLog2 p : Int) - (natLog2 d : Int)
  if qpow2 e0 ≤ a then e0 else e0 - 1

/-- Round a rational to an integer, ties to even. -/
def rneInt (x : ℚ) : Int :=
  let f := qFloor x
  let r := qSub x (mkRat f 1)
  if r < mkRat 1 2 then f
  else if mkRat 1 2 < r then f + 1
  else if f % 2 = 0 then f else f + 1

/-- Round a positive rational onto the representable grid of layout `L`
(gradual underflow: the working exponent is clamped at `emin`).  Overflow
is not handled here; see `roundVal`. -/
def roundPos (L : Layout) (m : RMode) (a : ℚ) : ℚ :=
  let e := max (qexp a) L.emin
  let scaled := qMul a (qpow2 ((L.M : Int) - e))
  let n : Int :=
    match m with
    | .RZERO => qFloor scaled
    | .RNE => rneInt scaled
  qMul (mkRat n 1) (qpow2 (e - (L.M : Int)))

/-- A value of the modelled configurable float type: NaN, a signed
infinity (`neg = true` for negative infinity), or a finite rational on
the representable grid. -/
inductive APVal where
  | nan
  | inf (neg : Bool)
  | fin (q : ℚ)
deriving DecidableEq, Repr

/-- NaN test (the `is_nan` predicate). -/
def APVal.isNan : APVal → Bool
  | .nan => true
  | _ => false

/-- Modelled from the spec: the rounding policy of the configurable float
library (vendor code, not in this repository).  Rounds an exact rational
intermediate result into layout `L` under mode `m`; round-to-nearest-even
overflows to a signed infinity, truncation saturates at the largest
finite value. -/
def roundVal (L : Layout) (m : RMode) (q : ℚ) : APVal :=
  if q = 0 then .fin 0
  else
    let r := roundPos L m (qAbs q)
    if L.maxFin < r then
      match m with
      | .RNE => .inf (decide (q < 0))
      | .RZERO => .fin (if q < 0 then qNeg L.maxFin else L.maxFin)
    else .fin (if q < 0 then qNeg r else r)

/-- Modelled from the spec: conversion of a native double (an exact
rational here) into a layout, the `from_native` constructor. -/
def from_native (q : ℚ) (L : Layout) (m : RMode) : APVal := roundVal L m q

/-- Modelled from the spec: the `to_double` read-back of a finite modelled
value as a native double; NaN and infinities have no rational image. -/
def to_double : APVal → Option ℚ
  | .fin q => some q
  | _ => none

/-- The finite values representable in layout `L`: `n * 2^k` with a
mantissa of at most `M+1` bits, exponent not below the subnormal range,
and magnitude at most `maxFin`. -/
def representable (L : Layout) (q : ℚ) : Prop :=
  ∃ n k : Int, q = (n : ℚ) * (2 : ℚ) ^ k ∧ |n| < 2 ^ (L.M + 1) ∧
    L.emin - (L.M : Int) ≤ k ∧ |q| ≤ L.maxFin

/-- The layout of the tutorials' 11-exponent/52-mantissa float type
(`APDoubleType`), matching native `double`. -/
def D64 : Layout := ⟨11, 52⟩

/-- The layout of the 11-exponent/44-mantissa type used in the sine test. -/
def D44 : Layout := ⟨11, 44⟩

/-- Smallest normal magnitude `2^emin` of a layout. -/
def Layout.minNormal (L : Layout) : ℚ := qpow2 L.emin

/-- Modelled from the spec: the rounding mode used for the result of an
arithmetic operation under each accuracy tier; `high` is correctly
rounded (round to nearest even), `low` may be off by up to one unit in
the last place (truncation). -/
def accRMode : AccTier → RMode
  | .high => .RNE
  | .low => .RZERO

/-- Modelled from the spec: the final rounding step of an arithmetic
operation.  With subnormal processing off, an exact result below the
smallest normal magnitude is flushed to zero before rounding. -/
def roundFlush (L : Layout) (acc : AccTier) (sm : SubMode) (x : ℚ) : APVal :=
  if sm = .off ∧ x ≠ 0 ∧ qAbs x < L.minNormal then .fin 0
  else roundVal L (accRMode acc) x

/-- Negation of a modelled float value. -/
def apNeg : APVal → APVal
  | .nan => .nan
  | .inf s => .inf (!s)
  | .fin q => .fin (qNeg q)

/-- Modelled from the spec: addition.  NaN operands propagate, opposite
infinities give NaN, and the finite case rounds the exact sum. -/
def apAdd (L : Layout) (acc : AccTier) (sm : SubMode) : APVal → APVal → APVal
  | .nan, _ => .nan
  | _, .nan => .nan
  | .inf s, .inf t => if s = t then .inf s else .nan
  | .inf s, .fin _ => .inf s
  | .fin _, .inf t => .inf t
  | .fin a, .fin b => roundFlush L acc sm (qAdd a b)

/-- Modelled from the spec: subtraction, as addition of the negation
(`∞ - ∞` therefore gives NaN). -/
def apSub (L : Layout) (acc : AccTier) (sm : SubMode) (x y : APVal) : APVal :=
  apAdd L acc sm x (apNeg y)

/-- Modelled from the spec: multiplication into an explicitly given
output layout.  NaN operands propagate, zero times infinity gives NaN,
and the finite case rounds the exact product of the operands directly —
the operands themselves are never converted to a common layout. -/
def apMul (Lout : Layout) (acc : AccTier) (sm : SubMode) : APVal → APVal → APVal
  | .nan, _ => .nan
  | _, .nan => .nan
  | .inf s, .inf t => .inf (xor s t)
  | .inf s, .fin b => if b = 0 then .nan else .inf (xor s (decide (b < 0)))
  | .fin a, .inf t => if a = 0 then .nan else .inf (xor (decide (a < 0)) t)
  | .fin a, .fin b => roundFlush Lout acc sm (qMul a b)

/-- Modelled from the spec: division.  NaN operands propagate, `∞/∞` and
`0/0` give NaN, division of a nonzero finite value by zero gives a
signed infinity, and the finite case rounds the exact quotient. -/
def apDiv (L : Layout) (acc : AccTier) (sm : SubMode) : APVal → APVal → APVal
  | .nan, _ => .nan
  | _, .nan => .nan
  | .inf _, .inf _ => .nan
  | .inf s, .fin b => .inf (xor s (decide (b < 0)))
  | .fin _, .inf _ => .fin 0
  | .fin a, .fin b =>
    if b = 0 then
      if a = 0 then .nan else .inf (decide (a < 0))
    else roundFlush L acc sm (qDiv a b)

/-- Modelled from the spec: square root, with the exact square root on
nonnegative rationals supplied as an oracle `s` (it is irrational in
general).  Negative input gives NaN (a domain error is a value, not a
fault), the square root of positive infinity is positive infinity. -/
def apSqrt (L : Layout) (acc : AccTier) (sm : SubMode) (s : ℚ → ℚ) : APVal → APVal
  | .nan => .nan
  | .inf s0 => if s0 then .nan else .inf false
  | .fin q => if q < 0 then .nan else roundFlush L acc sm (s q)

/-- The arithmetic interface the sine-approximation kernel is generic
over, mirroring the template parameter `T` of the kernel (a numeric type
with literal conversion and the basic operators). -/
structure FOps (α : Type) where
  ofQ : ℚ → α
  add : α → α → α
  mul : α → α → α
  div : α → α → α
  neg : α → α

/-- One iteration of the sine-approximation loop, translated line by
line from the kernel body: `res += term; sign = -sign;
denom *= 2*i*(2*i+1); numerator *= x*x; term = sign * numerator / denom`.
The state is `(res, sign, term, numerator, denom)`. -/
def sineStep (ops : FOps α) (x : α) (st : α × α × α × α × α) (i : Nat) :
    α × α × α × α × α :=
  match st with
  | (res, sign, term, numerator, denom) =>
    let res2 := ops.add res term
    let sign2 := ops.neg sign
    let denom2 := ops.mul denom (ops.ofQ (mkRat (2 * i * (2 * i + 1)) 1))
    let numerator2 := ops.mul numerator (ops.mul x x)
    let term2 := ops.div (ops.mul sign2 numerator2) denom2
    (res2, sign2, term2, numerator2, denom2)

/-- The loop of the sine kernel: `count` iterations starting at index
`i`. -/
def sineLoop (ops : FOps α) (x : α) : Nat → Nat → (α × α × α × α × α) → α
  | 0, _, st => st.1
  | count + 1, i, st => sineLoop ops x count (i + 1) (sineStep ops x st i)

/-- The sine-approximation kernel: initial state
`res = 0, sign = 1, term = x, numerator = x, denom = 1`, followed by the
loop for `i = 1 .. terms`, returning `res`. -/
def sineApprox (ops : FOps α) (x : α) (terms : Nat) : α :=
  sineLoop ops x terms 1 (ops.ofQ 0, ops.ofQ 1, x, x, ops.ofQ 1)

/-- The number of terms in the polynomial approximation
(`kSineApproximateTermsCount`). -/
def kSineApproximateTermsCount : Nat := 10

/-- Exact rational arithmetic (an idealized, infinitely precise
instantiation of the kernel's type parameter). -/
def ratFOps : FOps ℚ := ⟨fun q => q, qAdd, qMul, qDiv, qNeg⟩

/-- Modelled native `double` arithmetic: layout (11, 52), conversions
round to nearest even, operations correctly rounded, subnormals
processed. -/
def doubleFOps : FOps APVal :=
  ⟨fun q => roundVal D64 .RNE q, apAdd D64 .high .on, apMul D64 .high .on,
    apDiv D64 .high .on, apNeg⟩

/-- The reduced-precision type of the sine test: layout (11, 44),
conversions truncate toward zero, operations at the default
configuration (high accuracy, no subnormal processing). -/
def ap44FOps : FOps APVal :=
  ⟨fun q => roundVal D44 .RZERO q, apAdd D44 .high .off, apMul D44 .high .off,
    apDiv D44 .high .off, apNeg⟩

/-- The exact value of the `double` constant `M_PI_4` (the IEEE-754
double nearest to pi/4). -/
def kPi4 : ℚ := mkRat 884279719003555 (2 ^ 50)

/-- Result of the sine kernel instantiated at native-double precision on
the input pi/4. -/
def sineD64 : APVal :=
  sineApprox doubleFOps (roundVal D64 .RNE kPi4) kSineApproximateTermsCount

/-- Result of the sine kernel instantiated at the reduced (11, 44)
truncating type on the input pi/4 (the input is first converted into
that type, as in the test). -/
def sineAP44 : APVal :=
  sineApprox ap44FOps (roundVal D44 .RZERO kPi4) kSineApproximateTermsCount

/-- A value of the configurable float type together with the layout and
rounding mode of the type it belongs to (the mode is a property of the
type, fixed at construction, not per-value state). -/
structure TypedVal where
  L : Layout
  mode : RMode
  v : APVal

/-- Modelled from the spec: conversion of a value into another layout
under an explicitly given rounding mode; NaN and infinities are
preserved. -/
def convAPVal (L : Layout) (m : RMode) : APVal → APVal
  | .nan => .nan
  | .inf s => .inf s
  | .fin q => roundVal L m q

/-- Modelled from the spec: the dominance convention for mixed-layout
operations — the layout with the larger exponent width dominates, with
the larger mantissa width as tie-break. -/
def dominates (L1 L2 : Layout) : Bool :=
  decide (L2.E < L1.E) || (decide (L1.E = L2.E) && decide (L2.M ≤ L1.M))

/-- Modelled from the spec: the rounding mode used to promote the
non-dominant operand — round to nearest even, unless that operand's own
type mode is truncation, in which case truncation is used. -/
def promMode (m : RMode) : RMode := if m = .RZERO then .RZERO else .RNE

/-- Modelled from the spec: a mixed-layout binary operation for
add/sub/div — the non-dominant operand is first promoted into the
dominant layout (under `promMode` of its own type mode), then the
operation runs in the dominant layout, whose type mode the result
carries. -/
def promoteBinop (op : Layout → AccTier → SubMode → APVal → APVal → APVal)
    (acc : AccTier) (sm : SubMode) (x y : TypedVal) : TypedVal :=
  if dominates x.L y.L then
    ⟨x.L, x.mode, op x.L acc sm x.v (convAPVal x.L (promMode y.mode) y.v)⟩
  else
    ⟨y.L, y.mode, op y.L acc sm (convAPVal y.L (promMode x.mode) x.v) y.v⟩

/-- Mixed-layout addition. -/
def addTyped : AccTier → SubMode → TypedVal → TypedVal → TypedVal := promoteBinop apAdd

/-- Mixed-layout subtraction. -/
def subTyped : AccTier → SubMode → TypedVal → TypedVal → TypedVal := promoteBinop apSub

/-- Mixed-layout division. -/
def divTyped : AccTier → SubMode → TypedVal → TypedVal → TypedVal := promoteBinop apDiv

/-- Modelled from the spec: mixed-layout multiplication — the operands
are passed to the multiplier unconverted (whatever their own layouts),
and the product is rounded directly into the explicitly specified output
type. -/
def mulTyped (Lout : Layout) (mout : RMode) (acc : AccTier) (sm : SubMode)
    (x y : TypedVal) : TypedVal :=
  ⟨Lout, mout, apMul Lout acc sm x.v y.v⟩

/-- Translation of `quadratic_gold` from the source:
`rooted = b*b - 4*a*c`; if `rooted > 0` or `|rooted| < 1e-20`, the roots
are `(-b ± sqrt(|rooted|)) / (2*a)`, otherwise both components are NaN.
Doubles are idealized as exact rationals, NaN as `none`, the library
square root as an oracle parameter `s`, and the constant `1e-20` as the
exact rational. -/
def quadratic_gold (s : ℚ → ℚ) (a b c : ℚ) : Option ℚ × Option ℚ :=
  let rooted := b * b - 4 * a * c
  let rooted_abs := |rooted|
  if 0 < rooted ∨ rooted_abs < 1 / 10 ^ 20 then
    let root := s rooted_abs
    (some ((-b + root) / (2 * a)), some ((-b - root) / (2 * a)))
  else (none, none)

/-- Translation of the body of `SimpleQuadraticEqnSolverKernel` from the
source: same discriminant test as the gold function, with the absolute
value taken by an explicit sign flip, and NaN results from
`APDoubleType::nan()`.  The configurable-float arithmetic is idealized
as exact rationals with an oracle square root `s`. -/
def simpleQuadKernel (s : ℚ → ℚ) (a b c : ℚ) : Option ℚ × Option ℚ :=
  let rooted := b * b - 4 * a * c
  if 0 < rooted ∨ |rooted| < 1 / 10 ^ 20 then
    let rooted2 := if rooted < 0 then -rooted else rooted
    let root := s rooted2
    (some ((-b + root) / (2 * a)), some ((-b - root) / (2 * a)))
  else (none, none)

/-- The tolerance `kQuadraticEqnEpsilon` of the quadratic test driver. -/
def kQuadraticEqnEpsilon : ℚ := 1 / 10 ^ 6

/-- The per-root difference `fabs((double)output - golden)` computed by
the quadratic test driver; NaN (`none`) propagates through subtraction
and `fabs`. -/
def diffRoot : Option ℚ → Option ℚ → Option ℚ
  | some x, some g => some |x - g|
  | _, _ => none

/-- A `>` comparison on doubles with a NaN-aware left operand: any
comparison with NaN is false. -/
def nanGtB : Option ℚ → ℚ → Bool
  | some v, eps => decide (eps < v)
  | none, _ => false

/-- The update of the driver's `passed` flag for one test vector:
`if (diff_root1 > eps || diff_root2 > eps) passed = false;`. -/
def quadPassedUpdate (passed : Bool) (out gold : Option ℚ × Option ℚ) : Bool :=
  if nanGtB (diffRoot out.1 gold.1) kQuadraticEqnEpsilon ||
      nanGtB (diffRoot out.2 gold.2) kQuadraticEqnEpsilon then false
  else passed

/-- Outcome of a host utility call that may terminate the process
instead of returning. -/
inductive AllocOutcome (α : Type) where
  | terminated
  | returned (a : α)
deriving DecidableEq, Repr

/-- Translation of `fpga_tools::alloc_annotated` from
`annotated_class_util.hpp`: the underlying aligned allocation yields a
pointer (modelled as a natural number, `0` for null); a null pointer is
reported on stderr and the process is terminated, otherwise the pointer
is wrapped and returned.  Allocation failure is never returned to the
caller. -/
def alloc_annotated (p : Nat) : AllocOutcome Nat :=
  if p = 0 then .terminated else .returned p

@[simp] theorem qAdd_eq (a b : ℚ) : qAdd a b = a + b := (Rat.add_def' a b).symm

@[simp] theorem qSub_eq (a b : ℚ) : qSub a b = a - b := (Rat.sub_def' a b).symm

@[simp] theorem qMul_eq (a b : ℚ) : qMul a b = a * b := by
  rw [qMul, Rat.mul_def, Rat.normalize_eq_mkRat]

@[simp] theorem qNeg_eq (a : ℚ) : qNeg a = -a := by
  rw [qNeg, ← Rat.neg_mkRat, Rat.mkRat_self]

@[simp] theorem qDiv_eq (a b : ℚ) : qDiv a b = a / b := by
  rw [qDiv, Rat.divInt_eq_div]
  rcases eq_or_ne b 0 with rfl | hb
  · simp
  · have had : ((a.den : ℚ)) ≠ 0 := by exact_mod_cast a.den_nz
    have hbd : ((b.den : ℚ)) ≠ 0 := by exact_mod_cast b.den_nz
    have ha2 : (a.num : ℚ) = a * a.den := (div_eq_iff had).mp (Rat.num_div_den a)
    have hb2 : (b.num : ℚ) = b * b.den := (div_eq_iff hbd).mp (Rat.num_div_den b)
    push_cast
    field_simp
    rw [ha2, hb2]
    ring

@[simp] theorem qAbs_eq (a : ℚ) : qAbs a = |a| := by
  rw [qAbs]
  split_ifs with h
  · rw [qNeg_eq, abs_of_neg]
    exact lt_of_not_le fun hle => absurd (Rat.num_nonneg.mpr hle) (not_le.mpr h)
  · rw [abs_of_nonneg]
    exact Rat.num_nonneg.mp (not_lt.mp h)

@[simp] theorem qFloor_eq (a : ℚ) : qFloor a = ⌊a⌋ := Rat.floor_def.symm

theorem pow2F_eq : ∀ fuel n, n < 2 ^ fuel → pow2F fuel n = 2 ^ n := by
  intro fuel
  induction fuel with
  | zero =>
    intro n hn
    have h0 : n = 0 := by simpa using hn
    subst h0
    rfl
  | succ fuel ih =>
    intro n hn
    match n with
    | 0 => rfl
    | n + 1 =>
      have hpow : 2 ^ (fuel + 1) = 2 * 2 ^ fuel := by ring
      have hdiv : (n + 1) / 2 < 2 ^ fuel := by omega
      have hrec := ih ((n + 1) / 2) hdiv
      simp only [pow2F, hrec]
      by_cases hpar : (n + 1) % 2 = 0
      · rw [if_pos hpar, ← pow_add]
        congr 1
        omega
      · rw [if_neg hpar, ← pow_add, ← pow_succ']
        congr 1
        omega

theorem pow2Nat_eq (n : Nat) (hn : n < 2 ^ 64) : pow2Nat n = 2 ^ n := pow2F_eq 64 n hn

theorem qpow2_eq (k : Int) (hk : k.natAbs < 2 ^ 64) : qpow2 k = (2 : ℚ) ^ k := by
  rw [qpow2]
  split_ifs with h
  · rw [pow2Nat_eq k.toNat (by omega), Rat.mkRat_one]
    push_cast
    rw [← zpow_natCast (2 : ℚ) k.toNat, Int.toNat_of_nonneg h]
  · rw [pow2Nat_eq (-k).toNat (by omega), Rat.mkRat_eq_divInt, Rat.divInt_eq_div]
    push_cast
    rw [← zpow_natCast (2 : ℚ) (-k).toNat, Int.toNat_of_nonneg (by omega : (0:ℤ) ≤ -k),
      zpow_neg, one_div, inv_inv]

theorem qpow2_pos (k : Int) (hk : k.natAbs < 2 ^ 64) : 0 < qpow2 k := by
  rw [qpow2_eq k hk]; positivity

/-- C1: for all inputs, `quadratic_gold` computes the discriminant
`d = b*b - 4*a*c` and returns the root pair `(-b ± sqrt|d|)/(2a)` when
`d > 0` or `|d| < 1e-20`, and the NaN pair otherwise. -/
theorem quadratic_gold_spec (s : ℚ → ℚ) (a b c : ℚ) :
    (0 < b * b - 4 * a * c ∨ |b * b - 4 * a * c| < 1 / 10 ^ 20 →
      quadratic_gold s a b c =
        (some ((-b + s |b * b - 4 * a * c|) / (2 * a)),
         some ((-b - s |b * b - 4 * a * c|) / (2 * a)))) ∧
    (¬(0 < b * b - 4 * a * c ∨ |b * b - 4 * a * c| < 1 / 10 ^ 20) →
      quadratic_gold s a b c = (none, none)) := by
  constructor <;> intro h <;> simp only [quadratic_gold]
  · rw [if_pos h]
  · rw [if_neg h]

/-- Witness for C1: on input (1, 0, -1) with an oracle returning 2 at
the discriminant 4 the positive branch applies and the roots are 1 and
-1. -/
theorem quadratic_gold_spec_witness :
    quadratic_gold (fun _ => 2) 1 0 (-1) = (some 1, some (-1)) := by
  have h := (quadratic_gold_spec (fun _ => 2) 1 0 (-1)).1 (by norm_num)
  rw [h]
  norm_num

/-- C2: on input a=1, b=2, c=4 the discriminant is -12, and both the
solver kernel and the reference return the NaN pair (whatever the square
root oracle does), so the driver's isnan check on both components
passes. -/
theorem quad_nan_case (s : ℚ → ℚ) :
    ((2 : ℚ) * 2 - 4 * 1 * 4 = -12) ∧
    simpleQuadKernel s 1 2 4 = (none, none) ∧
    quadratic_gold s 1 2 4 = (none, none) := by
  refine ⟨by norm_num, ?_, ?_⟩
  · simp only [simpleQuadKernel]
    rw [if_neg (by norm_num)]
  · simp only [quadratic_gold]
    rw [if_neg (by norm_num)]

/-- C9: `alloc_annotated` never hands a null pointer back to the caller:
for every underlying allocation result it either terminates the process
or returns a nonzero pointer. -/
theorem alloc_annotated_never_null (p : Nat) :
    alloc_annotated p = .terminated ∨
      ∃ q, alloc_annotated p = .returned q ∧ q ≠ 0 := by
  by_cases h : p = 0
  · left; simp [alloc_annotated, h]
  · right; exact ⟨p, by simp [alloc_annotated, h], h⟩

/-- C10: when computed and golden roots are all NaN, the per-root
difference is NaN, the tolerance comparison is false, and the vector
never flips the driver's `passed` flag. -/
theorem quad_nan_vector_keeps_passed (passed : Bool) :
    diffRoot none none = none ∧
    nanGtB none kQuadraticEqnEpsilon = false ∧
    quadPassedUpdate passed ((none : Option ℚ), (none : Option ℚ)) (none, none) = passed :=
  ⟨rfl, rfl, rfl⟩

/-- C6: every arithmetic operation propagates NaN operands to a NaN
result, and the indeterminate forms `∞ - ∞`, `0 * ∞`, `0 / 0` and
`∞ / ∞` all give NaN. -/
theorem ap_ops_nan_rules (L : Layout) (acc : AccTier) (sm : SubMode) (s : ℚ → ℚ)
    (x y : APVal) :
    ((x.isNan = true ∨ y.isNan = true) →
      (apAdd L acc sm x y).isNan = true ∧ (apSub L acc sm x y).isNan = true ∧
      (apMul L acc sm x y).isNan = true ∧ (apDiv L acc sm x y).isNan = true) ∧
    (x.isNan = true → (apSqrt L acc sm s x).isNan = true) ∧
    (∀ b : Bool, apSub L acc sm (.inf b) (.inf b) = .nan) ∧
    (∀ b : Bool, apMul L acc sm (.fin 0) (.inf b) = .nan ∧
      apMul L acc sm (.inf b) (.fin 0) = .nan) ∧
    apDiv L acc sm (.fin 0) (.fin 0) = .nan ∧
    (∀ b1 b2 : Bool, apDiv L acc sm (.inf b1) (.inf b2) = .nan) := by
  refine ⟨?_, ?_, ?_, ?_, ?_, ?_⟩
  · intro h
    cases x <;> cases y <;>
      simp_all [apAdd, apSub, apMul, apDiv, apNeg, APVal.isNan]
  · intro h
    cases x <;> simp_all [apSqrt, APVal.isNan]
  · intro b; cases b <;> rfl
  · intro b
    constructor <;> simp [apMul]
  · simp [apDiv]
  · intro b1 b2; rfl

/-- Witness for C6 at a concrete configuration: a NaN operand makes
addition NaN, the square root of NaN is NaN, and 0/0 is NaN. -/
theorem ap_ops_nan_rules_witness :
    (apAdd D64 .high .on .nan (.fin 1)).isNan = true ∧
    (apSqrt D64 .high .on (fun q => q) .nan).isNan = true ∧
    apDiv D64 .high .on (.fin 0) (.fin 0) = .nan := by
  have h := ap_ops_nan_rules D64 .high .on (fun q => q) .nan (.fin 1)
  exact ⟨(h.1 (Or.inl rfl)).1, h.2.1 rfl, h.2.2.2.2.1⟩

/-- C7: in a mixed-layout add/sub/div the dominant operand is the one
whose layout has the larger exponent width (larger mantissa width as
tie-break); the other operand is promoted into the dominant layout,
under round-to-nearest-even unless its own type mode is truncation,
in which case truncation is used for the promotion. -/
theorem mixed_promotion_rule (acc : AccTier) (sm : SubMode) (x y : TypedVal) :
    (dominates x.L y.L = true ↔
      (y.L.E < x.L.E ∨ (x.L.E = y.L.E ∧ y.L.M ≤ x.L.M))) ∧
    (dominates x.L y.L = true →
      addTyped acc sm x y =
        ⟨x.L, x.mode, apAdd x.L acc sm x.v (convAPVal x.L (promMode y.mode) y.v)⟩ ∧
      subTyped acc sm x y =
        ⟨x.L, x.mode, apSub x.L acc sm x.v (convAPVal x.L (promMode y.mode) y.v)⟩ ∧
      divTyped acc sm x y =
        ⟨x.L, x.mode, apDiv x.L acc sm x.v (convAPVal x.L (promMode y.mode) y.v)⟩) ∧
    (dominates x.L y.L = false →
      addTyped acc sm x y =
        ⟨y.L, y.mode, apAdd y.L acc sm (convAPVal y.L (promMode x.mode) x.v) y.v⟩ ∧
      subTyped acc sm x y =
        ⟨y.L, y.mode, apSub y.L acc sm (convAPVal y.L (promMode x.mode) x.v) y.v⟩ ∧
      divTyped acc sm x y =
        ⟨y.L, y.mode, apDiv y.L acc sm (convAPVal y.L (promMode x.mode) x.v) y.v⟩) ∧
    promMode .RZERO = .RZERO ∧ (∀ m : RMode, m ≠ .RZERO → promMode m = .RNE) := by
  refine ⟨?_, ?_, ?_, rfl, ?_⟩
  · simp [dominates]
  · intro h
    refine ⟨?_, ?_, ?_⟩ <;> simp [addTyped, subTyped, divTyped, promoteBinop, h]
  · intro h
    refine ⟨?_, ?_, ?_⟩ <;> simp [addTyped, subTyped, divTyped, promoteBinop, h]
  · intro m hm
    cases m
    · rfl
    · exact absurd rfl hm

/-- Witness for C7: the (11,52) layout dominates the (8,23) layout, and
a concrete mixed addition takes the promoted form. -/
theorem mixed_promotion_rule_witness :
    addTyped .high .off ⟨D64, .RNE, .fin 1⟩ ⟨⟨8, 23⟩, .RZERO, .fin 1⟩ =
      ⟨D64, .RNE, apAdd D64 .high .off (.fin 1) (convAPVal D64 (promMode .RZERO) (.fin 1))⟩ :=
  ((mixed_promotion_rule .high .off ⟨D64, .RNE, .fin 1⟩ ⟨⟨8, 23⟩, .RZERO, .fin 1⟩).2.1
    (by rfl)).1

/-- C8: multiplication does not convert its operands to a common layout:
the result is independent of the operands' own layout and mode
annotations, and is obtained by rounding the exact product of the
operand values directly into the explicitly specified output type. -/
theorem mul_operands_unconverted (Lout : Layout) (mout : RMode) (acc : AccTier)
    (sm : SubMode) (L1 : Layout) (m1 : RMode) (L2 : Layout) (m2 : RMode)
    (v w : APVal) :
    mulTyped Lout mout acc sm ⟨L1, m1, v⟩ ⟨L2, m2, w⟩ =
      ⟨Lout, mout, apMul Lout acc sm v w⟩ ∧
    mulTyped Lout mout acc sm ⟨L1, m1, v⟩ ⟨L2, m2, w⟩ =
      mulTyped Lout mout acc sm ⟨D64, .RNE, v⟩ ⟨⟨8, 23⟩, .RZERO, w⟩ ∧
    (∀ a b : ℚ, apMul Lout acc sm (.fin a) (.fin b) = roundFlush Lout acc sm (a * b)) := by
  refine ⟨rfl, rfl, ?_⟩
  intro a b
  simp [apMul]

/-- C3 counterexample: with a square-root oracle accurate to 1e-8 at the
discriminant 2.01, the first root of the solver on input (1, -5.1, 6) is
3.2588723439, which does not agree with 3.262 to three decimals: the
claimed approximate value 3.262... is wrong (the root is 3.2589...). -/
theorem quad_root_not_3262 :
    (0 : ℚ) ≤ 14177446878 / 10 ^ 10 ∧
    |(14177446878 / 10 ^ 10 : ℚ) * (14177446878 / 10 ^ 10) - 201 / 100| ≤ 1 / 10 ^ 8 ∧
    (simpleQuadKernel (fun _ => 14177446878 / 10 ^ 10) 1 (-51 / 10) 6).1 =
      some (32588723439 / 10 ^ 10) ∧
    ¬ |(32588723439 / 10 ^ 10 : ℚ) - 3262 / 1000| < 1 / 1000 := by
  refine ⟨by norm_num, ?_, ?_, ?_⟩
  · rw [abs_le]
    constructor <;> norm_num
  · simp only [simpleQuadKernel]
    rw [show ((-51 / 10 : ℚ) * (-51 / 10) - 4 * 1 * 6) = 201 / 100 from by norm_num]
    rw [if_pos (by norm_num : (0:ℚ) < 201 / 100 ∨ |(201 : ℚ) / 100| < 1 / 10 ^ 20)]
    norm_num
  · intro hlt
    rw [abs_sub_lt_iff] at hlt
    have hcontra := hlt.2
    norm_num at hcontra

/-- C3 (amended): on input (1, -5.1, 6) the discriminant is 2.01 and,
for any square-root oracles accurate to 1e-8 at 2.01, the solver roots
are approximately 3.2589 and 1.8411 (not 3.262 and 1.837), and each
agrees with the corresponding `quadratic_gold` reference root within the
driver tolerance 1e-6. -/
theorem quad_roots_spec (f1 f2 : ℚ → ℚ)
    (h1n : 0 ≤ f1 (201 / 100))
    (h1 : |f1 (201 / 100) * f1 (201 / 100) - 201 / 100| ≤ 1 / 10 ^ 8)
    (h2n : 0 ≤ f2 (201 / 100))
    (h2 : |f2 (201 / 100) * f2 (201 / 100) - 201 / 100| ≤ 1 / 10 ^ 8) :
    ∃ r1 r2 g1 g2 : ℚ,
      simpleQuadKernel f1 1 (-51 / 10) 6 = (some r1, some r2) ∧
      quadratic_gold f2 1 (-51 / 10) 6 = (some g1, some g2) ∧
      |r1 - 32589 / 10000| < 1 / 1000 ∧ |r2 - 18411 / 10000| < 1 / 1000 ∧
      |r1 - g1| ≤ kQuadraticEqnEpsilon ∧ |r2 - g2| ≤ kQuadraticEqnEpsilon := by
  obtain ⟨h1lo, h1hi⟩ := abs_le.mp h1
  obtain ⟨h2lo, h2hi⟩ := abs_le.mp h2
  have hb1lo : (14177 / 10000 : ℚ) < f1 (201 / 100) := by nlinarith
  have hb1hi : f1 (201 / 100) < 14178 / 10000 := by nlinarith
  have hb2lo : (14177 / 10000 : ℚ) < f2 (201 / 100) := by nlinarith
  have hb2hi : f2 (201 / 100) < 14178 / 10000 := by nlinarith
  have hdiff1 : f1 (201 / 100) - f2 (201 / 100) ≤ 2 / 10 ^ 6 := by nlinarith
  have hdiff2 : f2 (201 / 100) - f1 (201 / 100) ≤ 2 / 10 ^ 6 := by nlinarith
  refine ⟨(51 / 10 + f1 (201 / 100)) / 2, (51 / 10 - f1 (201 / 100)) / 2,
    (51 / 10 + f2 (201 / 100)) / 2, (51 / 10 - f2 (201 / 100)) / 2, ?_, ?_, ?_, ?_, ?_, ?_⟩
  · simp only [simpleQuadKernel]
    rw [show ((-51 / 10 : ℚ) * (-51 / 10) - 4 * 1 * 6) = 201 / 100 from by norm_num]
    rw [if_pos (by norm_num : (0:ℚ) < 201 / 100 ∨ |(201 : ℚ) / 100| < 1 / 10 ^ 20)]
    rw [if_neg (by norm_num : ¬ ((201 : ℚ) / 100 < 0))]
    simp only [Prod.mk.injEq, Option.some.injEq]
    constructor <;> ring
  · simp only [quadratic_gold]
    rw [show ((-51 / 10 : ℚ) * (-51 / 10) - 4 * 1 * 6) = 201 / 100 from by norm_num]
    rw [show |(201 : ℚ) / 100| = 201 / 100 from abs_of_pos (by norm_num)]
    rw [if_pos (by norm_num : (0:ℚ) < 201 / 100 ∨ (201 : ℚ) / 100 < 1 / 10 ^ 20)]
    simp only [Prod.mk.injEq, Option.some.injEq]
    constructor <;> ring
  · rw [abs_sub_lt_iff]; constructor <;> linarith
  · rw [abs_sub_lt_iff]; constructor <;> linarith
  · rw [kQuadraticEqnEpsilon, abs_le]; constructor <;> linarith
  · rw [kQuadraticEqnEpsilon, abs_le]; constructor <;> linarith

/-- Witness for C3 (amended): a concrete oracle accurate at 2.01 serving
both the solver and the reference. -/
theorem quad_roots_spec_witness :
    ∃ r1 r2 g1 g2 : ℚ,
      simpleQuadKernel (fun _ => 14177446878 / 10 ^ 10) 1 (-51 / 10) 6 = (some r1, some r2) ∧
      quadratic_gold (fun _ => 14177446878 / 10 ^ 10) 1 (-51 / 10) 6 = (some g1, some g2) ∧
      |r1 - 32589 / 10000| < 1 / 1000 ∧ |r2 - 18411 / 10000| < 1 / 1000 ∧
      |r1 - g1| ≤ kQuadraticEqnEpsilon ∧ |r2 - g2| ≤ kQuadraticEqnEpsilon :=
  quad_roots_spec (fun _ => 14177446878 / 10 ^ 10) (fun _ => 14177446878 / 10 ^ 10)
    (by norm_num) (by rw [abs_le]; constructor <;> norm_num)
    (by norm_num) (by rw [abs_le]; constructor <;> norm_num)

set_option maxRecDepth 8000 in
/-- C4: the sine kernel evaluates the 10-term alternating Taylor series
(terms x, -x^3/3!, ..., up to -x^19/19!), and at the double value of
pi/4 both the native-double instantiation and the reduced-precision
(11,44) truncate-on-conversion instantiation produce a result within
1e-13 of sin(pi/4) = 1/sqrt 2. -/
theorem sine_approx_spec :
    (∀ x : ℚ, sineApprox ratFOps x kSineApproximateTermsCount =
      x - x ^ 3 / 6 + x ^ 5 / 120 - x ^ 7 / 5040 + x ^ 9 / 362880 - x ^ 11 / 39916800
        + x ^ 13 / 6227020800 - x ^ 15 / 1307674368000 + x ^ 17 / 355687428096000
        - x ^ 19 / 121645100408832000) ∧
    (∃ rD rA : ℚ,
      to_double sineD64 = some rD ∧ to_double sineAP44 = some rA ∧
      |(rD : ℝ) - (Real.sqrt 2)⁻¹| < 1 / 10 ^ 13 ∧
      |(rA : ℝ) - (Real.sqrt 2)⁻¹| < 1 / 10 ^ 13) := by
  have e1 : (Real.sqrt 2)⁻¹ = Real.sqrt (1 / 2) := by
    rw [one_div, Real.sqrt_inv]
  have lo : (0.70710678118654752 : ℝ) < Real.sqrt (1 / 2) :=
    (Real.lt_sqrt (by norm_num)).mpr (by norm_num)
  have hi : Real.sqrt (1 / 2) < 0.70710678118654753 :=
    (Real.sqrt_lt' (by norm_num)).mpr (by norm_num)
  constructor
  · intro x
    simp only [sineApprox, sineLoop, sineStep, ratFOps, kSineApproximateTermsCount,
      qAdd_eq, qMul_eq, qDiv_eq, qNeg_eq]
    norm_num
    ring
  · refine ⟨mkRat 1592262918131443 (2 ^ 51), mkRat 12439554047901 (2 ^ 44),
      by decide, by decide, ?_, ?_⟩
    · rw [e1, abs_sub_lt_iff]
      rw [Rat.mkRat_eq_divInt, Rat.divInt_eq_div]
      constructor
      · have : ((1592262918131443 / 2 ^ 51 : ℚ) : ℝ) - 0.70710678118654752 < 1 / 10 ^ 13 := by
          push_cast
          norm_num
        linarith
      · have : (0.70710678118654753 : ℝ) - ((1592262918131443 / 2 ^ 51 : ℚ) : ℝ) < 1 / 10 ^ 13 := by
          push_cast
          norm_num
        linarith
    · rw [e1, abs_sub_lt_iff]
      rw [Rat.mkRat_eq_divInt, Rat.divInt_eq_div]
      constructor
      · have : ((12439554047901 / 2 ^ 44 : ℚ) : ℝ) - 0.70710678118654752 < 1 / 10 ^ 13 := by
          push_cast
          norm_num
        linarith
      · have : (0.70710678118654753 : ℝ) - ((12439554047901 / 2 ^ 44 : ℚ) : ℝ) < 1 / 10 ^ 13 := by
          push_cast
          norm_num
        linarith

theorem natLog2Small_le : ∀ fuel n, natLog2Small fuel n ≤ fuel := by
  intro fuel
  induction fuel with
  | zero => intro n; simp [natLog2Small]
  | succ fuel ih =>
    intro n
    rw [natLog2Small]
    split_ifs with h
    · omega
    · have := ih (n / 2)
      omega

theorem natLog2C_le : ∀ fuel n, natLog2C fuel n ≤ 64 * fuel + 64 := by
  intro fuel
  induction fuel with
  | zero => intro n; simpa using natLog2Small_le 64 n
  | succ fuel ih =>
    intro n
    rw [natLog2C]
    split_ifs with h
    · have := natLog2Small_le 64 n
      omega
    · have := ih (n / 2 ^ 64)
      omega

theorem natLog2_le (n : Nat) : natLog2 n ≤ 4160 := by
  have := natLog2C_le 64 n
  simpa [natLog2] using this

theorem natLog2Small_spec : ∀ fuel n, 1 ≤ n → n < 2 ^ fuel →
    2 ^ natLog2Small fuel n ≤ n ∧ n < 2 ^ (natLog2Small fuel n + 1) := by
  intro fuel
  induction fuel with
  | zero => intro n h1 h2; omega
  | succ fuel ih =>
    intro n h1 h2
    rw [natLog2Small]
    split_ifs with h
    · constructor <;> omega
    · have h2' : n / 2 < 2 ^ fuel := by
        have hpow : 2 ^ (fuel + 1) = 2 * 2 ^ fuel := by ring
        omega
      have h1' : 1 ≤ n / 2 := by omega
      obtain ⟨ihl, ihh⟩ := ih (n / 2) h1' h2'
      constructor
      · calc 2 ^ (natLog2Small fuel (n / 2) + 1) = 2 ^ natLog2Small fuel (n / 2) * 2 := by ring
        _ ≤ (n / 2) * 2 := by omega
        _ ≤ n := by omega
      · have : n < (n / 2 + 1) * 2 := by omega
        calc n < (n / 2 + 1) * 2 := this
        _ ≤ 2 ^ (natLog2Small fuel (n / 2) + 1) * 2 := by
            have : n / 2 + 1 ≤ 2 ^ (natLog2Small fuel (n / 2) + 1) := by omega
            omega
        _ = 2 ^ (natLog2Small fuel (n / 2) + 1 + 1) := by ring

theorem natLog2C_spec : ∀ fuel n, 1 ≤ n → n < 2 ^ (64 * fuel + 64) →
    2 ^ natLog2C fuel n ≤ n ∧ n < 2 ^ (natLog2C fuel n + 1) := by
  intro fuel
  induction fuel with
  | zero =>
    intro n h1 h2
    rw [natLog2C]
    exact natLog2Small_spec 64 n h1 (by simpa using h2)
  | succ fuel ih =>
    intro n h1 h2
    rw [natLog2C]
    split_ifs with h
    · exact natLog2Small_spec 64 n h1 h
    · have h2' : n / 2 ^ 64 < 2 ^ (64 * fuel + 64) := by
        rw [Nat.div_lt_iff_lt_mul (by positivity)]
        calc n < 2 ^ (64 * (fuel + 1) + 64) := h2
        _ = 2 ^ (64 * fuel + 64) * 2 ^ 64 := by rw [← pow_add]; ring_nf
      have h1' : 1 ≤ n / 2 ^ 64 := by
        rw [Nat.le_div_iff_mul_le (by positivity)]
        omega
      obtain ⟨ihl, ihh⟩ := ih (n / 2 ^ 64) h1' h2'
      have hmul : n / 2 ^ 64 * 2 ^ 64 ≤ n := Nat.div_mul_le_self n _
      have hmul2 : n < (n / 2 ^ 64 + 1) * 2 ^ 64 := by
        have hdm := Nat.div_add_mod n (2 ^ 64)
        have hlt : n % 2 ^ 64 < 2 ^ 64 := Nat.mod_lt n (by positivity)
        omega
      constructor
      · calc 2 ^ (natLog2C fuel (n / 2 ^ 64) + 64)
            = 2 ^ natLog2C fuel (n / 2 ^ 64) * 2 ^ 64 := by rw [← pow_add]
        _ ≤ n / 2 ^ 64 * 2 ^ 64 := by
            exact Nat.mul_le_mul_right _ ihl
        _ ≤ n := hmul
      · calc n < (n / 2 ^ 64 + 1) * 2 ^ 64 := hmul2
        _ ≤ 2 ^ (natLog2C fuel (n / 2 ^ 64) + 1) * 2 ^ 64 :=
            Nat.mul_le_mul_right _ (by omega)
        _ = 2 ^ (natLog2C fuel (n / 2 ^ 64) + 64 + 1) := by rw [← pow_add]

theorem natLog2_spec (n : Nat) (h1 : 1 ≤ n) (h2 : n < 2 ^ 4160) :
    2 ^ natLog2 n ≤ n ∧ n < 2 ^ (natLog2 n + 1) := by
  rw [natLog2]
  exact natLog2C_spec 64 n h1 ((by norm_num : 64 * 64 + 64 = 4160) ▸ h2)

theorem qhalf_eq : mkRat 1 2 = (1 : ℚ) / 2 := by
  rw [Rat.mkRat_eq_divInt, Rat.divInt_eq_div]
  norm_num

theorem rneInt_intCast (z : ℤ) : rneInt ((z : ℚ)) = z := by
  simp only [rneInt, qFloor_eq, qSub_eq, Rat.mkRat_one, Int.floor_intCast, sub_self, qhalf_eq]
  rw [if_pos (by norm_num)]

theorem qexp_le (a : ℚ) (ha : 0 < a) (hnum : a.num.natAbs < 2 ^ 4160)
    (hden : a.den < 2 ^ 4160) :
    (2 : ℚ) ^ qexp a ≤ a ∧ (qexp a).natAbs ≤ 4161 := by
  have hnum0 : a.num ≠ 0 := Rat.num_ne_zero.mpr (ne_of_gt ha)
  have hp1 : 1 ≤ a.num.natAbs := by omega
  have hd1 : 1 ≤ a.den := a.den_pos
  obtain ⟨hpl, hph⟩ := natLog2_spec a.num.natAbs hp1 hnum
  obtain ⟨hdl, hdh⟩ := natLog2_spec a.den hd1 hden
  have hlpB := natLog2_le a.num.natAbs
  have hldB := natLog2_le a.den
  have hdpos : (0 : ℚ) < (a.den : ℚ) := by exact_mod_cast a.den_pos
  have hnumpos : 0 < a.num := Rat.num_pos.mpr ha
  have h0 : (a.num.natAbs : ℤ) = a.num := Int.natAbs_of_nonneg hnumpos.le
  have hPcast : ((a.num.natAbs : ℚ)) = ((a.num : ℤ) : ℚ) := by
    calc ((a.num.natAbs : ℚ)) = (((a.num.natAbs : ℤ)) : ℚ) := (Int.cast_natCast _).symm
    _ = ((a.num : ℤ) : ℚ) := by rw [h0]
  have hPD : ((a.num.natAbs : ℚ)) = a * (a.den : ℚ) := by
    rw [hPcast]
    exact (div_eq_iff hdpos.ne').mp (Rat.num_div_den a)
  have hmain : ((2 : ℚ) ^ qexp a ≤ a) ∧
      (qexp a = (natLog2 a.num.natAbs : ℤ) - (natLog2 a.den : ℤ) ∨
        qexp a = (natLog2 a.num.natAbs : ℤ) - (natLog2 a.den : ℤ) - 1) := by
    simp only [qexp]
    split_ifs with hcond
    · rw [qpow2_eq _ (by omega)] at hcond
      exact ⟨hcond, Or.inl rfl⟩
    · refine ⟨?_, Or.inr rfl⟩
      have key : (2 : ℚ) ^ ((natLog2 a.num.natAbs : ℤ) - (natLog2 a.den : ℤ) - 1) *
          (a.den : ℚ) ≤ ((a.num.natAbs : ℚ)) := by
        calc (2 : ℚ) ^ ((natLog2 a.num.natAbs : ℤ) - (natLog2 a.den : ℤ) - 1) * (a.den : ℚ)
            ≤ (2 : ℚ) ^ ((natLog2 a.num.natAbs : ℤ) - (natLog2 a.den : ℤ) - 1) *
              (2 : ℚ) ^ ((natLog2 a.den + 1 : ℕ) : ℤ) := by
              apply mul_le_mul_of_nonneg_left _ (by positivity)
              rw [zpow_natCast]
              exact_mod_cast hdh.le
          _ = (2 : ℚ) ^ ((natLog2 a.num.natAbs : ℕ) : ℤ) := by
              rw [← zpow_add₀ (two_ne_zero)]
              congr 1
              push_cast
              ring
          _ ≤ ((a.num.natAbs : ℚ)) := by
              rw [zpow_natCast]
              exact_mod_cast hpl
      rw [hPD] at key
      exact le_of_mul_le_mul_right key hdpos
  refine ⟨hmain.1, ?_⟩
  rcases hmain.2 with h | h <;> rw [h] <;> omega

theorem abs_repr (q : ℚ) (n k : ℤ) (hq : q = (n : ℚ) * (2 : ℚ) ^ k) :
    |q| = ((|n| : ℤ) : ℚ) * (2 : ℚ) ^ k := by
  rw [hq, abs_mul, abs_of_pos (a := (2 : ℚ) ^ k) (by positivity), Int.cast_abs]

theorem maxFin_D64_eq : D64.maxFin = ((2 : ℚ) ^ (53 : ℕ) - 1) * (2 : ℚ) ^ (971 : ℤ) := by
  rw [Layout.maxFin, qMul_eq]
  rw [show D64.emax - (D64.M : ℤ) = (971 : ℤ) from by decide]
  rw [qpow2_eq _ (by norm_num)]
  congr 1
  rw [Rat.mkRat_one]
  push_cast
  norm_num [show D64.M = 52 from rfl]

theorem maxFin_D64_lt : D64.maxFin < (2 : ℚ) ^ (1024 : ℤ) := by
  rw [maxFin_D64_eq]
  have h1 : (2 : ℚ) ^ (1024 : ℤ) = ((2 : ℚ) ^ (53 : ℕ)) * (2 : ℚ) ^ (971 : ℤ) := by
    rw [← zpow_natCast (2 : ℚ) 53, ← zpow_add₀ two_ne_zero]
    norm_num
  rw [h1]
  apply mul_lt_mul_of_pos_right _ (by positivity)
  norm_num

theorem k_le_1023 (q : ℚ) (n k : ℤ) (hq0 : q ≠ 0) (hq : q = (n : ℚ) * (2 : ℚ) ^ k)
    (hmax : |q| ≤ D64.maxFin) : k ≤ 1023 := by
  have hn0 : n ≠ 0 := fun h => hq0 (by rw [hq, h]; simp)
  have habs := abs_repr q n k hq
  have h1 : (1 : ℚ) ≤ ((|n| : ℤ) : ℚ) := by
    have : (1 : ℤ) ≤ |n| := Int.one_le_abs hn0
    exact_mod_cast this
  have h2 : (2 : ℚ) ^ k ≤ |q| := by
    rw [habs]
    nlinarith [zpow_pos (show (0:ℚ) < 2 from by norm_num) k]
  have h3 : (2 : ℚ) ^ k < (2 : ℚ) ^ (1024 : ℤ) := lt_of_le_of_lt (h2.trans hmax) maxFin_D64_lt
  have h4 : k < 1024 := (zpow_lt_zpow_iff_right₀ (by norm_num : (1:ℚ) < 2)).mp h3
  omega

theorem repr_num_den_bounds (q : ℚ) (n k : ℤ) (hq0 : q ≠ 0)
    (hq : q = (n : ℚ) * (2 : ℚ) ^ k) (hn : |n| < 2 ^ 53) (hk : -1074 ≤ k)
    (hmax : |q| ≤ D64.maxFin) :
    |q|.num.natAbs < 2 ^ 4160 ∧ |q|.den < 2 ^ 4160 := by
  have hn0 : n ≠ 0 := fun h => hq0 (by rw [hq, h]; simp)
  have habs := abs_repr q n k hq
  have hkle := k_le_1023 q n k hq0 hq hmax
  have hX : |q| = Rat.divInt (|n| * 2 ^ (k + 1074).toNat) (2 ^ 1074) := by
    rw [Rat.divInt_eq_div, habs]
    push_cast
    rw [← zpow_natCast (2 : ℚ) (k + 1074).toNat, Int.toNat_of_nonneg (by omega : 0 ≤ k + 1074)]
    have hsplit : (2 : ℚ) ^ (k + 1074) = (2 : ℚ) ^ k * (2 : ℚ) ^ (1074 : ℕ) := by
      rw [← zpow_natCast (2 : ℚ) 1074, ← zpow_add₀ two_ne_zero]
      norm_num
    rw [hsplit, ← mul_assoc, mul_div_cancel_right₀ _ (pow_ne_zero _ (two_ne_zero))]
  constructor
  · have hnumdvd := Rat.num_dvd (|n| * 2 ^ (k + 1074).toNat)
      (show (2 ^ 1074 : ℤ) ≠ 0 from by positivity)
    rw [← hX] at hnumdvd
    have hXpos : (0 : ℤ) < |n| * 2 ^ (k + 1074).toNat :=
      mul_pos (abs_pos.mpr hn0) (by positivity)
    have hdvdN : |q|.num.natAbs ∣ (|n| * 2 ^ (k + 1074).toNat).natAbs :=
      Int.natAbs_dvd_natAbs.mpr hnumdvd
    have hle : |q|.num.natAbs ≤ (|n| * 2 ^ (k + 1074).toNat).natAbs :=
      Nat.le_of_dvd (Int.natAbs_pos.mpr hXpos.ne') hdvdN
    have hXval : (|n| * 2 ^ (k + 1074).toNat).natAbs = n.natAbs * 2 ^ (k + 1074).toNat := by
      rw [Int.natAbs_mul, Int.natAbs_abs]
      congr 1
      rw [Int.natAbs_pow]
      rfl
    have hn2 : (n.natAbs : ℤ) < 2 ^ 53 := by rwa [← Int.abs_eq_natAbs]
    have hnN : n.natAbs < 2 ^ 53 := by exact_mod_cast hn2
    have hjN : (k + 1074).toNat ≤ 2097 := by omega
    have hbound : n.natAbs * 2 ^ (k + 1074).toNat < 2 ^ 53 * 2 ^ 2097 := by
      have h1 : (2:ℕ) ^ (k + 1074).toNat ≤ 2 ^ 2097 :=
        Nat.pow_le_pow_right (by norm_num) hjN
      calc n.natAbs * 2 ^ (k + 1074).toNat < 2 ^ 53 * 2 ^ (k + 1074).toNat :=
            (Nat.mul_lt_mul_right (by positivity)).mpr hnN
      _ ≤ 2 ^ 53 * 2 ^ 2097 := Nat.mul_le_mul_left _ h1
    have hfin : (2 : ℕ) ^ 53 * 2 ^ 2097 < 2 ^ 4160 := by
      rw [← pow_add]
      exact Nat.pow_lt_pow_right (by norm_num) (by norm_num)
    calc |q|.num.natAbs ≤ (|n| * 2 ^ (k + 1074).toNat).natAbs := hle
    _ = n.natAbs * 2 ^ (k + 1074).toNat := hXval
    _ < 2 ^ 53 * 2 ^ 2097 := hbound
    _ < 2 ^ 4160 := hfin
  · have hdendvd := Rat.den_dvd (|n| * 2 ^ (k + 1074).toNat) (2 ^ 1074)
    rw [← hX] at hdendvd
    have hd1 : (|q|.den : ℤ) ≤ 2 ^ 1074 :=
      Int.le_of_dvd (by positivity) hdendvd
    have hd2 : |q|.den ≤ 2 ^ 1074 := by exact_mod_cast hd1
    have hd3 : (2 : ℕ) ^ 1074 < 2 ^ 4160 := Nat.pow_lt_pow_right (by norm_num) (by norm_num)
    exact lt_of_le_of_lt hd2 hd3

theorem roundPos_id (q : ℚ) (n k : ℤ) (hq0 : q ≠ 0) (hq : q = (n : ℚ) * (2 : ℚ) ^ k)
    (hn : |n| < 2 ^ 53) (hk : -1074 ≤ k) (hmax : |q| ≤ D64.maxFin) :
    roundPos D64 .RNE |q| = |q| := by
  have hn0 : n ≠ 0 := fun h => hq0 (by rw [hq, h]; simp)
  have ha : 0 < |q| := abs_pos.mpr hq0
  obtain ⟨hnum, hden⟩ := repr_num_den_bounds q n k hq0 hq hn hk hmax
  obtain ⟨hqlow, hqbnd⟩ := qexp_le |q| ha hnum hden
  have habs := abs_repr q n k hq
  have hncast : ((|n| : ℤ) : ℚ) < (2 : ℚ) ^ (53 : ℕ) := by exact_mod_cast hn
  have hqek : qexp |q| ≤ k + 52 := by
    by_contra hcon
    push_neg at hcon
    have h2 : (2 : ℚ) ^ (k + 53) ≤ (2 : ℚ) ^ qexp |q| :=
      zpow_le_zpow_right₀ (by norm_num) (by omega)
    have hsplit : (2 : ℚ) ^ (k + 53) = (2 : ℚ) ^ k * (2 : ℚ) ^ (53 : ℕ) := by
      rw [← zpow_natCast (2 : ℚ) 53, ← zpow_add₀ two_ne_zero]
      norm_num
    have h3 : |q| < (2 : ℚ) ^ (k + 53) := by
      rw [habs, hsplit]
      calc ((|n| : ℤ) : ℚ) * (2 : ℚ) ^ k < (2 : ℚ) ^ (53 : ℕ) * (2 : ℚ) ^ k :=
            mul_lt_mul_of_pos_right hncast (by positivity)
      _ = (2 : ℚ) ^ k * (2 : ℚ) ^ (53 : ℕ) := by ring
    linarith
  have hemin : D64.emin = (-1022 : ℤ) := by decide
  simp only [roundPos]
  rw [hemin, show ((D64.M : ℕ) : ℤ) = (52 : ℤ) from rfl]
  set e := max (qexp |q|) (-1022 : ℤ) with he
  have heK : e ≤ k + 52 := by
    rw [he]
    exact max_le hqek (by omega)
  have heAbs : e.natAbs ≤ 4161 := by
    have h1 : -1022 ≤ e := le_max_right _ _
    have h2 : e ≤ 4161 := by
      rw [he]
      apply max_le _ (by omega)
      omega
    omega
  have hj : 0 ≤ k + 52 - e := by omega
  rw [qMul_eq, qMul_eq, Rat.mkRat_one, qpow2_eq _ (by omega), qpow2_eq _ (by omega)]
  have hscaled : |q| * (2 : ℚ) ^ ((52 : ℤ) - e) = ((|n| * 2 ^ (k + 52 - e).toNat : ℤ) : ℚ) := by
    rw [habs]
    push_cast
    rw [← zpow_natCast (2 : ℚ) (k + 52 - e).toNat, Int.toNat_of_nonneg hj]
    rw [mul_assoc, ← zpow_add₀ two_ne_zero]
    rw [show k + ((52 : ℤ) - e) = k + 52 - e from by ring]
  rw [hscaled, rneInt_intCast, ← hscaled]
  rw [mul_assoc, ← zpow_add₀ two_ne_zero,
    show (52 : ℤ) - e + (e - 52) = 0 from by ring, zpow_zero, mul_one]

set_option maxRecDepth 8000 in
/-- C5: converting any finite double (any rational representable in the
(11, 52) layout) with `from_native` under round-to-nearest-even and
reading it back with `to_double` reproduces the value exactly. -/
theorem from_native_roundtrip (q : ℚ) (h : representable D64 q) :
    to_double (from_native q D64 .RNE) = some q := by
  obtain ⟨n, k, hq, hn, hk, hmax⟩ := h
  rw [from_native]
  by_cases hq0 : q = 0
  · subst hq0
    rw [roundVal, if_pos rfl]
    rfl
  · have hk2 : -1074 ≤ k := by
      have : D64.emin - (D64.M : ℤ) = -1074 := by decide
      omega
    have hn2 : |n| < 2 ^ 53 := by
      have : (2 : ℤ) ^ (D64.M + 1) = 2 ^ 53 := by norm_num [show D64.M = 52 from rfl]
      omega
    have hr := roundPos_id q n k hq0 hq hn2 hk2 hmax
    rw [roundVal, if_neg hq0]
    simp only [qAbs_eq]
    rw [hr]
    rw [if_neg (not_lt.mpr hmax)]
    rcases lt_or_le q 0 with hlt | hle
    · rw [if_pos hlt]
      simp only [to_double, qNeg_eq, Option.some.injEq]
      rw [abs_of_neg hlt]
      ring
    · rw [if_neg (not_lt.mpr hle)]
      simp only [to_double, Option.some.injEq]
      exact abs_of_nonneg hle

/-- Witness for C5 at the concrete double 3/2 = 3 * 2 ^ (-1). -/
theorem from_native_roundtrip_witness :
    to_double (from_native (3 / 2) D64 .RNE) = some (3 / 2) := by
  apply from_native_roundtrip
  refine ⟨3, -1, by norm_num, by decide, by decide, ?_⟩
  rw [maxFin_D64_eq]
  have h1 : |(3 / 2 : ℚ)| = 3 / 2 := by norm_num
  rw [h1]
  nlinarith [zpow_pos (show (0:ℚ) < 2 from by norm_num) (971 : ℤ),
    zpow_le_zpow_right₀ (show (1:ℚ) ≤ 2 from by norm_num) (show (0:ℤ) ≤ 971 from by norm_num)]
